import Mathlib

set_option maxHeartbeats 1600000

/-!
Shallow embedding of the data-cleaning pipeline of `src/t86_excel.py`
(lines 151-199).  The pipeline, executed when the user presses the
"Process Data" button, is:

  * line 151: `df['has_weight'] = df[weight_column].notna()` — an in-place
    assignment of a fresh boolean column on the input frame;
  * line 152: `df_sorted = df.sort_values(by=[duplicate_column, 'has_weight'],
    ascending=[True, False])` — a multi-key sort; pandas sorts on several keys
    with a stable lexicographic sort (`kind` applies only to single-column
    sorts) and places NaN keys last (`na_position='last'`), ordering the NaN
    group by the remaining keys;
  * line 153: `df_clean = df_sorted.drop_duplicates(subset=[duplicate_column],
    keep='first')` — keeps the first row of each key group; pandas treats NaN
    key values as equal to one another here;
  * lines 156-157: if `filter_value` is truthy (non-empty), drop rows whose
    `filter_column` cell, converted with `astype(str)` (NaN stringifies to
    "nan") and lower-cased, contains the lower-cased `filter_value`
    (`str.contains` treats the pattern as a regular expression by default);
  * lines 160-193: optionally parse the date column with
    `pd.to_datetime(..., errors='coerce')` (unparsable cells become NaT) and
    keep rows inside the chosen range (comparison of full timestamps against
    midnight bounds) or on the chosen single calendar day
    (`.dt.date == single_dt.date()`);
  * line 199: `final_df = df_clean[columns_to_keep]` — column projection,
    which keeps rows and their order unchanged.

Rows are modelled with exactly the four cells the pipeline reads; a missing
cell (pandas NaN/NaT) is `Option.none`.
-/

/-- Timestamp as produced by pandas `to_datetime`: an integer calendar day
plus a time-of-day component, `tod = 0` meaning midnight.  Applied to a plain
calendar date (the widget values of lines 170-171 and 183), `to_datetime`
yields midnight of that day. -/
structure Timestamp where
  day : Int
  tod : Nat
deriving DecidableEq

/-- Comparison of two timestamps, day first and time of day second, as pandas
compares datetime values. -/
def tsLE (a b : Timestamp) : Bool :=
  decide (a.day < b.day) || (decide (a.day = b.day) && decide (a.tod ≤ b.tod))

/-- One table row, restricted to the four cells the pipeline of
`t86_excel.py` reads: `key` is the `duplicate_column` cell, `weight` the
`weight_column` cell, `filterVal` the `filter_column` cell and `pdate` the
result of `pd.to_datetime(cell, errors='coerce')` on the `date_column` cell
(`Option.none` models NaT: a missing or unparsable date).  A missing cell is
`Option.none`. -/
structure Row where
  key : Option Int
  weight : Option Int
  filterVal : Option String
  pdate : Option Timestamp
deriving DecidableEq

/-- Line 151: `df[weight_column].notna()`, the per-row boolean flag stored in
the `has_weight` column. -/
def has_weight (r : Row) : Bool := r.weight.isSome

/-- Sort rank of the `has_weight` flag under `ascending=False`: flagged rows
(rank 0) sort before unflagged rows (rank 1). -/
def wRank (r : Row) : Nat := if r.weight.isSome then 0 else 1

/-- The row comparison realised by line 152: primary key `duplicate_column`
ascending with NaN keys last (`na_position='last'`), secondary key
`has_weight` descending.  Rows with equal keys (including the NaN group,
which pandas still orders by the remaining keys) compare by `wRank`. -/
def rowLE (a b : Row) : Bool :=
  match a.key, b.key with
  | Option.none, Option.none => decide (wRank a ≤ wRank b)
  | Option.none, Option.some _ => false
  | Option.some _, Option.none => true
  | Option.some x, Option.some y =>
      if x = y then decide (wRank a ≤ wRank b) else decide (x < y)

/-- Stable insertion of a row into an already sorted list: the inserted row
goes before the first element it compares `≤` to, hence before any element it
ties with — elements inserted earlier (which come later in the input) stay
behind. -/
def insertRow (r : Row) : List Row → List Row
  | [] => [r]
  | x :: xs => if rowLE r x then r :: x :: xs else x :: insertRow r xs

/-- Line 152: `df.sort_values(by=[duplicate_column, 'has_weight'],
ascending=[True, False])`.  Pandas sorts on several keys with a stable
lexicographic sort, which any stable sort by `rowLE` realises; a stable
insertion sort is used here. -/
def sort_values : List Row → List Row
  | [] => []
  | r :: rs => insertRow r (sort_values rs)

/-- Helper for `drop_duplicates`: walk the list keeping each row whose key has
not been seen yet. -/
def dropDupAux : List Row → List (Option Int) → List Row
  | [], _ => []
  | r :: rs, seen =>
      if r.key ∈ seen then dropDupAux rs seen
      else r :: dropDupAux rs (r.key :: seen)

/-- Line 153: `drop_duplicates(subset=[duplicate_column], keep='first')` —
keeps the first row of each key group in the current order.  Pandas treats
NaN key values as equal to one another here, so `Option.none` is an ordinary
key value. -/
def drop_duplicates (l : List Row) : List Row := dropDupAux l []

/-- Whether `sub` is a leading segment of `hay` (character lists). -/
def hasPrefixL : List Char → List Char → Bool
  | [], _ => true
  | _ :: _, [] => false
  | c :: cs, h :: hs => decide (c = h) && hasPrefixL cs hs

/-- Whether `sub` occurs contiguously somewhere in `hay` (character lists). -/
def substrAux (sub : List Char) : List Char → Bool
  | [] => hasPrefixL sub []
  | c :: rest => hasPrefixL sub (c :: rest) || substrAux sub rest

/-- Substring containment.  Pandas `str.contains` on line 157 treats the
pattern as a regular expression (`regex=True` by default); on patterns free
of regex metacharacters (`regexFree` below) the regex search coincides with
literal substring containment, which this function computes.  Theorems that
characterise which rows the text filter matches are stated under that guard;
the other pipeline theorems do not depend on which rows the step removes. -/
def hasSubstr (hay sub : String) : Bool := substrAux sub.toList hay.toList

/-- Python regex metacharacters for `re.search`: a pattern containing none of
them is matched literally by the regex engine. -/
def regexSpecialChar (c : Char) : Bool :=
  c = '.' || c = '^' || c = '$' || c = '*' || c = '+' || c = '?' ||
  c = '[' || c = ']' || c = '(' || c = ')' || c = '\\' || c = '|' ||
  c.toNat = 123 || c.toNat = 125

/-- Patterns made only of ordinary characters (no regex metacharacters; the
codes 123 and 125 are the curly braces): on these, Python `re.search` — and
hence `str.contains` on line 157 — coincides with literal substring
containment, so `hasSubstr` is an exact model on this domain. -/
def regexFree (s : String) : Bool := s.toList.all fun c => !(regexSpecialChar c)

/-- Python `str.lower` restricted to the ASCII letters the app works with. -/
def lowerStr (s : String) : String := String.mk (s.toList.map Char.toLower)

/-- Effect of `astype(str)` on one cell: a missing value (NaN) stringifies to
the literal text "nan". -/
def strOfCell : Option String → String
  | Option.none => "nan"
  | Option.some s => s

/-- Lines 156-157: `if filter_value:` (Python truthiness — the empty string
skips the step) then
`df_clean[~df_clean[filter_column].astype(str).str.lower().str.contains(filter_value.lower(), na=False)]`.
After `astype(str)` no missing values remain (NaN became "nan"), so the
`na=False` fallback is never consulted.  `str.contains` uses the lower-cased
pattern as a regular expression; the containment test here is exact for
`regexFree` patterns, and theorems characterising the matching are stated
under that guard. -/
def excludeFilter (filter_value : String) (l : List Row) : List Row :=
  if filter_value = "" then l
  else l.filter fun r =>
    !(hasSubstr (lowerStr (strOfCell r.filterVal)) (lowerStr filter_value))

/-- The date-filter request assembled by the widgets: no filter (no date
column chosen or no valid dates), a range filter with start and end calendar
days, or a single-date filter. -/
inductive DateFilter where
  | nofilter : DateFilter
  | range (startD endD : Int) : DateFilter
  | single (d : Int) : DateFilter
deriving DecidableEq

/-- Lines 170-171 and 183: `pd.to_datetime` on a widget calendar date gives
midnight of that day. -/
def toTs (d : Int) : Timestamp := ⟨d, 0⟩

/-- Lines 160-193: the optional date filter on the already deduplicated and
text-filtered rows.  `temp_date` is the row's `pdate`; NaT (`Option.none`)
satisfies neither branch, so such rows are dropped whenever a filter is
active.  The range branch (lines 174-177) compares full timestamps against
midnight bounds; the single-date branch (lines 186-188) compares calendar
days only. -/
def dateFilter : DateFilter → List Row → List Row
  | DateFilter.nofilter, l => l
  | DateFilter.range s e, l =>
      l.filter fun r =>
        match r.pdate with
        | Option.none => false
        | Option.some t => tsLE (toTs s) t && tsLE t (toTs e)
  | DateFilter.single d, l =>
      l.filter fun r =>
        match r.pdate with
        | Option.none => false
        | Option.some t => decide (t.day = d)

/-- The full row pipeline of lines 151-199: sort, deduplicate, text-filter,
date-filter.  Column projection (line 199) keeps rows and their order
unchanged, so it is the identity at row level. -/
def clean (filter_value : String) (dfil : DateFilter) (l : List Row) : List Row :=
  dateFilter dfil (excludeFilter filter_value (drop_duplicates (sort_values l)))

/-- Line 151 writes `df['has_weight'] = ...` IN PLACE on the input frame: the
column list of the input after the pipeline has run.  Pandas appends the new
column when absent and overwrites it in place when present.  This assignment
is the only statement of the pipeline that writes to the input `df`
(`sort_values` and `drop_duplicates` return copies). -/
def inputColumnsAfterClean (cols : List String) : List String :=
  if "has_weight" ∈ cols then cols else cols ++ ["has_weight"]

/-- Key-match predicate: the row's `duplicate_column` cell equals `k`. -/
def pk (k : Option Int) (r : Row) : Bool := decide (r.key = k)

/-- Key-match and the `weight_column` cell is present. -/
def pw (k : Option Int) (r : Row) : Bool := decide (r.key = k) && r.weight.isSome

/-- Key-match and the `weight_column` cell is missing. -/
def pu (k : Option Int) (r : Row) : Bool := decide (r.key = k) && !r.weight.isSome

/-- The row the deduplication step (lines 151-153) retains for key value `k`,
if any. -/
def retained (l : List Row) (k : Option Int) : Option Row :=
  (drop_duplicates (sort_values l)).find? (pk k)

/-- Strict version of the primary sort key of line 152: `duplicate_column`
ascending with NaN last. -/
def keyLT : Option Int → Option Int → Bool
  | Option.none, _ => false
  | Option.some _, Option.none => true
  | Option.some x, Option.some y => decide (x < y)

/-! ### Order properties of the sort comparison -/

theorem rowLE_of_tie {a b : Row} (hk : a.key = b.key) (hw : wRank a ≤ wRank b) :
    rowLE a b = true := by
  rcases a with ⟨ka, wa, fa, da⟩
  rcases b with ⟨kb, wb, fb, db⟩
  have hk2 : ka = kb := hk
  subst hk2
  rcases ka with _ | x
  · simpa [rowLE] using hw
  · simpa [rowLE] using hw

theorem rowLE_tie_of_both {a b : Row} (h1 : rowLE a b = true) (h2 : rowLE b a = true) :
    a.key = b.key ∧ wRank a = wRank b := by
  rcases a with ⟨ka, wa, fa, da⟩
  rcases b with ⟨kb, wb, fb, db⟩
  rcases ka with _ | x <;> rcases kb with _ | y
  · simp [rowLE] at h1 h2
    exact ⟨rfl, Nat.le_antisymm h1 h2⟩
  · simp [rowLE] at h1
  · simp [rowLE] at h2
  · by_cases hxy : x = y
    · subst hxy
      simp [rowLE] at h1 h2
      exact ⟨rfl, Nat.le_antisymm h1 h2⟩
    · have hyx : ¬ y = x := fun hh => hxy hh.symm
      simp [rowLE, hxy] at h1
      simp [rowLE, hyx] at h2
      exact absurd (h1.trans h2) (lt_irrefl x)

theorem rowLE_total (a b : Row) : rowLE a b = true ∨ rowLE b a = true := by
  rcases a with ⟨ka, wa, fa, da⟩
  rcases b with ⟨kb, wb, fb, db⟩
  rcases ka with _ | x <;> rcases kb with _ | y
  · simp [rowLE]
    exact Nat.le_total _ _
  · simp [rowLE]
  · simp [rowLE]
  · by_cases hxy : x = y
    · subst hxy
      simp [rowLE]
      exact Nat.le_total _ _
    · have hyx : ¬ y = x := fun hh => hxy hh.symm
      simp [rowLE, hxy, hyx]

theorem rowLE_trans {a b c : Row} (h1 : rowLE a b = true) (h2 : rowLE b c = true) :
    rowLE a c = true := by
  rcases a with ⟨ka, wa, fa, da⟩
  rcases b with ⟨kb, wb, fb, db⟩
  rcases c with ⟨kc, wc, fc, dc⟩
  rcases ka with _ | x <;> rcases kb with _ | y <;> rcases kc with _ | z
  · simp [rowLE] at h1 h2 ⊢
    omega
  · simp [rowLE] at h2
  · simp [rowLE] at h1
  · simp [rowLE] at h1
  · simp [rowLE]
  · simp [rowLE] at h2
  · simp [rowLE]
  · by_cases hxy : x = y
    · subst hxy
      by_cases hxz : x = z
      · subst hxz
        simp [rowLE] at h1 h2 ⊢
        omega
      · simp [rowLE, hxz] at h2 ⊢
        exact h2
    · by_cases hyz : y = z
      · subst hyz
        simp [rowLE, hxy] at h1 ⊢
        exact h1
      · by_cases hxz : x = z
        · subst hxz
          have hyx : ¬ y = x := fun hh => hxy hh.symm
          simp [rowLE, hxy] at h1
          simp [rowLE, hyx] at h2
          exact absurd (h1.trans h2) (lt_irrefl x)
        · simp [rowLE, hxy] at h1
          simp [rowLE, hyz] at h2
          simp [rowLE, hxz]
          omega

theorem keyLT_of_rowLE_ne {a b : Row} (h : rowLE a b = true) (hne : a.key ≠ b.key) :
    keyLT a.key b.key = true := by
  rcases a with ⟨ka, wa, fa, da⟩
  rcases b with ⟨kb, wb, fb, db⟩
  rcases ka with _ | x <;> rcases kb with _ | y
  · exact absurd rfl hne
  · simp [rowLE] at h
  · simp [keyLT]
  · by_cases hxy : x = y
    · subst hxy
      exact absurd rfl hne
    · simp [rowLE, hxy] at h
      simpa [keyLT] using h

/-! ### The stable sort of line 152 -/

theorem mem_insertRow {x r : Row} {l : List Row} :
    x ∈ insertRow r l ↔ x = r ∨ x ∈ l := by
  induction l with
  | nil => simp [insertRow]
  | cons a l ih =>
    by_cases h : rowLE r a = true
    · simp only [insertRow, if_pos h]
      simp
    · simp only [insertRow, if_neg h]
      simp [ih]
      tauto

theorem insertRow_perm (r : Row) (l : List Row) : (insertRow r l).Perm (r :: l) := by
  induction l with
  | nil => simp [insertRow]
  | cons a l ih =>
    by_cases h : rowLE r a = true
    · simp [insertRow, if_pos h]
    · rw [insertRow, if_neg h]
      exact (ih.cons a).trans (List.Perm.swap r a l)

theorem pairwise_insertRow {r : Row} {l : List Row}
    (h : l.Pairwise fun a b => rowLE a b = true) :
    (insertRow r l).Pairwise fun a b => rowLE a b = true := by
  induction l with
  | nil => simp [insertRow]
  | cons a l ih =>
    rcases List.pairwise_cons.mp h with ⟨ha, hl⟩
    by_cases hra : rowLE r a = true
    · rw [insertRow, if_pos hra]
      refine List.pairwise_cons.mpr ⟨?_, h⟩
      intro b hb
      rcases List.mem_cons.mp hb with rfl | hb
      · exact hra
      · exact rowLE_trans hra (ha b hb)
    · rw [insertRow, if_neg hra]
      refine List.pairwise_cons.mpr ⟨?_, ih hl⟩
      intro b hb
      rcases mem_insertRow.mp hb with rfl | hb
      · rcases rowLE_total a b with hh | hh
        · exact hh
        · exact absurd hh hra
      · exact ha b hb

theorem sort_values_perm (l : List Row) : (sort_values l).Perm l := by
  induction l with
  | nil => simp [sort_values]
  | cons r rs ih => exact (insertRow_perm r (sort_values rs)).trans (ih.cons r)

theorem sort_values_pairwise (l : List Row) :
    (sort_values l).Pairwise fun a b => rowLE a b = true := by
  induction l with
  | nil => simp [sort_values]
  | cons r rs ih => exact pairwise_insertRow ih

theorem filter_insertRow_pos {p : Row → Bool} {r : Row} {l : List Row}
    (hr : p r = true) (hcls : ∀ x, p x = true → rowLE r x = true) :
    (insertRow r l).filter p = r :: l.filter p := by
  induction l with
  | nil => simp [insertRow, hr]
  | cons a l ih =>
    by_cases hra : rowLE r a = true
    · simp only [insertRow, if_pos hra]
      simp [List.filter_cons, hr]
    · simp only [insertRow, if_neg hra]
      by_cases hpa : p a = true
      · exact absurd (hcls a hpa) hra
      · simp [List.filter_cons, hpa, ih]

theorem filter_insertRow_neg {p : Row → Bool} {r : Row} {l : List Row}
    (hr : p r = false) : (insertRow r l).filter p = l.filter p := by
  induction l with
  | nil => simp [insertRow, hr]
  | cons a l ih =>
    by_cases hra : rowLE r a = true
    · simp [insertRow, if_pos hra, List.filter_cons, hr]
    · simp only [insertRow, if_neg hra]
      simp [List.filter_cons, ih]

theorem sort_values_filter_class {p : Row → Bool}
    (hcls : ∀ x y, p x = true → p y = true → rowLE x y = true) :
    ∀ l : List Row, (sort_values l).filter p = l.filter p := by
  intro l
  induction l with
  | nil => rfl
  | cons r rs ih =>
    by_cases hr : p r = true
    · rw [sort_values, filter_insertRow_pos hr (fun x hx => hcls r x hr hx)]
      simp [List.filter_cons, hr, ih]
    · have hr' : p r = false := by
        cases hh : p r
        · rfl
        · exact absurd hh hr
      rw [sort_values, filter_insertRow_neg hr']
      simp [List.filter_cons, hr', ih]

/-! ### The keep-first deduplication of line 153 -/

theorem dropDupAux_sublist : ∀ (l : List Row) (seen : List (Option Int)),
    (dropDupAux l seen).Sublist l := by
  intro l
  induction l with
  | nil =>
    intro seen
    simp [dropDupAux]
  | cons r rs ih =>
    intro seen
    by_cases h : r.key ∈ seen
    · simp only [dropDupAux, if_pos h]
      exact (ih seen).cons r
    · simp only [dropDupAux, if_neg h]
      exact (ih (r.key :: seen)).cons₂ r

theorem dropDupAux_key_notin : ∀ (l : List Row) (seen : List (Option Int)) (r : Row),
    r ∈ dropDupAux l seen → r.key ∉ seen := by
  intro l
  induction l with
  | nil =>
    intro seen r h
    simp [dropDupAux] at h
  | cons a rs ih =>
    intro seen r h
    by_cases ha : a.key ∈ seen
    · rw [dropDupAux, if_pos ha] at h
      exact ih seen r h
    · rw [dropDupAux, if_neg ha] at h
      rcases List.mem_cons.mp h with rfl | h
      · exact ha
      · intro hmem
        exact ih (a.key :: seen) r h (List.mem_cons_of_mem _ hmem)

theorem dropDupAux_pairwise : ∀ (l : List Row) (seen : List (Option Int)),
    (dropDupAux l seen).Pairwise fun a b => a.key ≠ b.key := by
  intro l
  induction l with
  | nil =>
    intro seen
    simp [dropDupAux]
  | cons a rs ih =>
    intro seen
    by_cases ha : a.key ∈ seen
    · simp only [dropDupAux, if_pos ha]
      exact ih seen
    · simp only [dropDupAux, if_neg ha]
      refine List.pairwise_cons.mpr ⟨?_, ih _⟩
      intro b hb hk
      exact dropDupAux_key_notin rs (a.key :: seen) b hb
        (by rw [← hk]; exact List.mem_cons_self _ _)

theorem dropDupAux_find? : ∀ (l : List Row) (seen : List (Option Int)) (k : Option Int),
    k ∉ seen → (dropDupAux l seen).find? (pk k) = l.find? (pk k) := by
  intro l
  induction l with
  | nil =>
    intro seen k hk
    rfl
  | cons a rs ih =>
    intro seen k hk
    by_cases ha : a.key ∈ seen
    · simp only [dropDupAux, if_pos ha]
      have hak : pk k a = false := by
        cases hh : pk k a
        · rfl
        · exfalso
          simp [pk] at hh
          exact hk (hh ▸ ha)
      rw [List.find?_cons_of_neg _ (by simp [hak]), ih seen k hk]
    · simp only [dropDupAux, if_neg ha]
      by_cases hak : pk k a = true
      · rw [List.find?_cons_of_pos _ hak, List.find?_cons_of_pos _ hak]
      · have hak' : pk k a = false := by
          cases hh : pk k a
          · rfl
          · exact absurd hh hak
        rw [List.find?_cons_of_neg _ (by simp [hak']),
          List.find?_cons_of_neg _ (by simp [hak'])]
        apply ih
        intro hmem
        rcases List.mem_cons.mp hmem with h1 | h1
        · exact hak (by simp [pk, h1])
        · exact hk h1

theorem drop_duplicates_find? (l : List Row) (k : Option Int) :
    (drop_duplicates l).find? (pk k) = l.find? (pk k) :=
  dropDupAux_find? l [] k (by simp)

theorem find?_eq_head?_filter (p : Row → Bool) :
    ∀ l : List Row, l.find? p = (l.filter p).head? := by
  intro l
  induction l with
  | nil => rfl
  | cons a l ih =>
    by_cases h : p a = true
    · rw [List.find?_cons_of_pos _ h]
      simp [List.filter_cons, h]
    · have h' : p a = false := by
        cases hh : p a
        · rfl
        · exact absurd hh h
      rw [List.find?_cons_of_neg _ h, ih, List.filter_cons, if_neg h]

theorem find?_congrP {p q : Row → Bool} :
    ∀ l : List Row, (∀ x ∈ l, p x = q x) → l.find? p = l.find? q := by
  intro l
  induction l with
  | nil =>
    intro h
    rfl
  | cons a rs ih =>
    intro h
    have ha := h a (List.mem_cons_self a rs)
    by_cases hpa : p a = true
    · rw [List.find?_cons_of_pos _ hpa, List.find?_cons_of_pos _ (ha ▸ hpa)]
    · rw [List.find?_cons_of_neg _ hpa, List.find?_cons_of_neg _ (ha ▸ hpa)]
      exact ih fun x hx => h x (List.mem_cons_of_mem a hx)

theorem filter_split_of_sorted {l : List Row} {p p1 p2 : Row → Bool}
    (hsort : l.Pairwise fun a b => rowLE a b = true)
    (hsum : ∀ x, p x = (p1 x || p2 x))
    (hsep : ∀ x y, rowLE x y = true → p2 x = true → p1 y = false)
    (hdisj : ∀ x, p1 x = true → p2 x = false) :
    l.filter p = l.filter p1 ++ l.filter p2 := by
  induction l with
  | nil => rfl
  | cons a l ih =>
    rcases List.pairwise_cons.mp hsort with ⟨ha, hl⟩
    by_cases h1 : p1 a = true
    · have h2 : p2 a = false := hdisj a h1
      have hp : p a = true := by rw [hsum]; simp [h1]
      simp [List.filter_cons, hp, h1, h2, ih hl]
    · have h1' : p1 a = false := by
        cases hh : p1 a
        · rfl
        · exact absurd hh h1
      by_cases h2 : p2 a = true
      · have hp : p a = true := by rw [hsum]; simp [h2]
        have hnil : l.filter p1 = [] := by
          rw [List.filter_eq_nil_iff]
          intro x hx
          rw [hsep a x (ha x hx) h2]
          simp
        simp [List.filter_cons, hp, h1', h2, ih hl, hnil]
      · have h2' : p2 a = false := by
          cases hh : p2 a
          · rfl
          · exact absurd hh h2
        have hp : p a = false := by rw [hsum]; simp [h1', h2']
        simp [List.filter_cons, hp, h1', h2', ih hl]

theorem wRank_le_of_rowLE {a b : Row} (hk : a.key = b.key) (h : rowLE a b = true) :
    wRank a ≤ wRank b := by
  rcases a with ⟨ka, wa, fa, da⟩
  rcases b with ⟨kb, wb, fb, db⟩
  have hk2 : ka = kb := hk
  subst hk2
  rcases ka with _ | x
  · simpa [rowLE] using h
  · simpa [rowLE] using h

theorem pw_class {k : Option Int} :
    ∀ x y : Row, pw k x = true → pw k y = true → rowLE x y = true := by
  intro x y hx hy
  simp [pw] at hx hy
  apply rowLE_of_tie (by rw [hx.1, hy.1])
  simp [wRank, hx.2, hy.2]

theorem pu_class {k : Option Int} :
    ∀ x y : Row, pu k x = true → pu k y = true → rowLE x y = true := by
  intro x y hx hy
  simp [pu] at hx hy
  apply rowLE_of_tie (by rw [hx.1, hy.1])
  simp [wRank, hx.2, hy.2]

theorem pw_after_pu {k : Option Int} :
    ∀ x y : Row, rowLE x y = true → pu k x = true → pw k y = false := by
  intro x y hxy hx
  simp [pu] at hx
  cases hh : pw k y
  · rfl
  · exfalso
    simp [pw] at hh
    have hkk : x.key = y.key := by rw [hx.1, hh.1]
    have := wRank_le_of_rowLE hkk hxy
    simp [wRank, hx.2, hh.2] at this

theorem pw_disj {k : Option Int} : ∀ x : Row, pw k x = true → pu k x = false := by
  intro x h
  simp [pw] at h
  simp [pu, h.2]

theorem pk_eq_or {k : Option Int} : ∀ x : Row, pk k x = (pw k x || pu k x) := by
  intro x
  unfold pk pw pu
  cases hd : decide (x.key = k) <;> cases hs : x.weight.isSome <;> simp

/-- Characterisation of lines 151-153: the row retained for key `k` is the
first row of the input (in original order) whose key is `k` and whose weight
cell is present, and if the key group has no weighted row, the first row of
the input whose key is `k`. -/
theorem dedup_sort_find? (l : List Row) (k : Option Int) :
    (drop_duplicates (sort_values l)).find? (pk k) =
      match l.find? (pw k) with
      | Option.some r => Option.some r
      | Option.none => l.find? (pk k) := by
  rw [drop_duplicates_find?, find?_eq_head?_filter,
    filter_split_of_sorted (sort_values_pairwise l) pk_eq_or pw_after_pu pw_disj,
    sort_values_filter_class pw_class, sort_values_filter_class pu_class]
  rcases hW : l.find? (pw k) with _ | r
  · have hnil : l.filter (pw k) = [] := by
      rw [find?_eq_head?_filter] at hW
      rcases hfil : l.filter (pw k) with _ | ⟨a, rest⟩
      · rfl
      · rw [hfil] at hW
        cases hW
    rw [hnil]
    simp only [List.nil_append]
    rw [← find?_eq_head?_filter]
    show l.find? (pu k) = l.find? (pk k)
    apply find?_congrP
    intro x hx
    have hxw : pw k x = false := by
      cases hh : pw k x
      · rfl
      · exact absurd hh (List.filter_eq_nil_iff.mp hnil x hx)
    rw [pk_eq_or x, hxw]
    simp
  · rcases hfil : l.filter (pw k) with _ | ⟨a, rest⟩
    · rw [find?_eq_head?_filter, hfil] at hW
      cases hW
    · rw [find?_eq_head?_filter, hfil] at hW
      simp at hW
      simp [hW]

/-! ### Pipeline-level helpers -/

theorem filter_congrP {p q : Row → Bool} :
    ∀ l : List Row, (∀ x ∈ l, p x = q x) → l.filter p = l.filter q := by
  intro l
  induction l with
  | nil =>
    intro h
    rfl
  | cons a rs ih =>
    intro h
    have ha := h a (List.mem_cons_self a rs)
    have htl := ih fun x hx => h x (List.mem_cons_of_mem a hx)
    by_cases hpa : p a = true
    · simp [List.filter_cons, hpa, ha ▸ hpa, htl]
    · have hpa' : p a = false := by
        cases hh : p a
        · rfl
        · exact absurd hh hpa
      simp [List.filter_cons, hpa', ha ▸ hpa', htl]

theorem excludeFilter_sublist (fv : String) (l : List Row) :
    (excludeFilter fv l).Sublist l := by
  unfold excludeFilter
  by_cases h : fv = ""
  · rw [if_pos h]
  · rw [if_neg h]
    exact List.filter_sublist l

theorem dateFilter_sublist (dfil : DateFilter) (l : List Row) :
    (dateFilter dfil l).Sublist l := by
  cases dfil with
  | nofilter => exact List.Sublist.refl l
  | range s e => exact List.filter_sublist l
  | single d => exact List.filter_sublist l

theorem drop_duplicates_sublist (l : List Row) : (drop_duplicates l).Sublist l :=
  dropDupAux_sublist l []

theorem clean_sublist_dedup (fv : String) (dfil : DateFilter) (l : List Row) :
    (clean fv dfil l).Sublist (drop_duplicates (sort_values l)) :=
  (dateFilter_sublist dfil _).trans (excludeFilter_sublist fv _)

theorem mem_excl_dedup {fv : String} {l : List Row} {x : Row}
    (hx : x ∈ excludeFilter fv (drop_duplicates (sort_values l))) : x ∈ l :=
  (sort_values_perm l).mem_iff.mp
    ((drop_duplicates_sublist _).subset ((excludeFilter_sublist fv _).subset hx))

theorem clean_mem_input {fv : String} {dfil : DateFilter} {l : List Row} {r : Row}
    (h : r ∈ clean fv dfil l) : r ∈ l :=
  (sort_values_perm l).mem_iff.mp
    ((drop_duplicates_sublist _).subset ((clean_sublist_dedup fv dfil l).subset h))

theorem dedup_pairwise_key (l : List Row) :
    (drop_duplicates (sort_values l)).Pairwise fun a b => a.key ≠ b.key :=
  dropDupAux_pairwise (sort_values l) []

theorem clean_pairwise_key (fv : String) (dfil : DateFilter) (l : List Row) :
    (clean fv dfil l).Pairwise fun a b => a.key ≠ b.key :=
  List.Pairwise.sublist (clean_sublist_dedup fv dfil l) (dedup_pairwise_key l)

theorem clean_pairwise_rowLE (fv : String) (dfil : DateFilter) (l : List Row) :
    (clean fv dfil l).Pairwise fun a b => rowLE a b = true :=
  List.Pairwise.sublist (clean_sublist_dedup fv dfil l)
    (List.Pairwise.sublist (drop_duplicates_sublist _) (sort_values_pairwise l))

theorem clean_pairwise_keyLT (fv : String) (dfil : DateFilter) (l : List Row) :
    (clean fv dfil l).Pairwise fun a b => keyLT a.key b.key = true :=
  ((clean_pairwise_rowLE fv dfil l).and (clean_pairwise_key fv dfil l)).imp
    fun hab => keyLT_of_rowLE_ne hab.1 hab.2

/-! ### Claim theorems -/

/-- C1: for every input table and every cleaning request, the output of
`clean` never contains two rows with equal, non-null dedupe-key values: after
the keep-first deduplication of lines 151-153 at most one row per non-null
key value survives to the output. -/
theorem c1_clean_no_duplicate_keys (fv : String) (dfil : DateFilter) (l : List Row) :
    (clean fv dfil l).Pairwise fun a b => ¬(a.key = b.key ∧ a.key ≠ Option.none) :=
  (clean_pairwise_key fv dfil l).imp fun hab hc => hab hc.1

/-- C3 counterexample: two distinct rows with null dedupe keys are merged by
the deduplication of line 153 (pandas treats NaN keys as equal): the second
null-key row is in the input and passes every filter, yet is absent from the
output of `clean` with all optional filters off. -/
theorem c3_null_keys_merged_counterexample :
    (⟨Option.none, Option.none, some "x", Option.none⟩ : Row) ∈
        ([⟨Option.none, Option.none, Option.none, Option.none⟩,
          ⟨Option.none, Option.none, some "x", Option.none⟩] : List Row) ∧
      (⟨Option.none, Option.none, some "x", Option.none⟩ : Row) ∉
        clean "" DateFilter.nofilter
          [⟨Option.none, Option.none, Option.none, Option.none⟩,
           ⟨Option.none, Option.none, some "x", Option.none⟩] := by
  decide

/-- C3 amended: null dedupe-key rows are NOT retained independently: the
deduplication treats null as an ordinary key value, so at most one null-key
row survives to the output of `clean`. -/
theorem c3_null_keys_dedupe_amended (fv : String) (dfil : DateFilter) (l : List Row) :
    (clean fv dfil l).Pairwise fun a b =>
      ¬(a.key = Option.none ∧ b.key = Option.none) :=
  (clean_pairwise_key fv dfil l).imp fun hab hc => hab (hc.1.trans hc.2.symm)

/-- C6: an empty exclude substring is a no-op: `if filter_value:` is false on
the empty string, so `clean` with an empty substring equals the pipeline with
only the deduplication and date-filter steps. -/
theorem c6_empty_substring_noop (dfil : DateFilter) (l : List Row) :
    clean "" dfil l = dateFilter dfil (drop_duplicates (sort_values l)) := by
  unfold clean excludeFilter
  rw [if_pos rfl]

/-- C9 counterexample: an input table lacking a has_weight column does not
keep its column set across `clean`: the in-place assignment of line 151 adds
that column to the input frame. -/
theorem c9_input_mutated_counterexample :
    inputColumnsAfterClean ["id", "weight"] ≠ ["id", "weight"] := by decide

/-- C9 amended: `clean` mutates its input: line 151 writes a has_weight
column onto the input frame in place — appended when absent, its cells
overwritten when present.  The original column NAMES survive in order as a
prefix, the mutated input always carries a has_weight column, and the column
list is unchanged exactly when the input already had a has_weight column: an
input lacking one is observably changed. -/
theorem c9_input_mutation_amended (cols : List String) :
    (inputColumnsAfterClean cols).take cols.length = cols ∧
      "has_weight" ∈ inputColumnsAfterClean cols ∧
      (inputColumnsAfterClean cols = cols ↔ "has_weight" ∈ cols) := by
  unfold inputColumnsAfterClean
  by_cases h : "has_weight" ∈ cols
  · rw [if_pos h]
    exact ⟨List.take_length cols, h, by simp [h]⟩
  · rw [if_neg h]
    refine ⟨List.take_left cols ["has_weight"], by simp, ?_⟩
    constructor
    · intro heq
      have hlen := congrArg List.length heq
      simp at hlen
    · intro hmem
      exact absurd hmem h

/-- C10: the rows of the output of `clean` appear in strictly ascending order
of their dedupe-key value with null-key rows last, not in original input
order: the sort of line 152 is never undone before the column projection of
line 199. -/
theorem c10_output_sorted_by_key (fv : String) (dfil : DateFilter) (l : List Row) :
    (clean fv dfil l).Pairwise fun a b => keyLT a.key b.key = true :=
  clean_pairwise_keyLT fv dfil l

/-- C2: among input rows sharing a dedupe-key value, if at least one has a
non-null weight cell, the single row retained by the deduplication of lines
151-153 has a non-null weight cell. -/
theorem c2_priority_retained (l : List Row) (k : Option Int) (r : Row)
    (hex : ∃ x ∈ l, x.key = k ∧ x.weight.isSome = true)
    (hr : retained l k = Option.some r) : r.weight.isSome = true := by
  rcases hex with ⟨x, hx, hxk, hxw⟩
  unfold retained at hr
  rw [dedup_sort_find? l k] at hr
  rcases hW : l.find? (pw k) with _ | w
  · exfalso
    exact List.find?_eq_none.mp hW x hx (by simp [pw, hxk, hxw])
  · rw [hW] at hr
    simp at hr
    subst hr
    have hww := List.find?_some hW
    simp [pw] at hww
    exact hww.2

/-- C4: among rows that tie on both the dedupe-key value and the has_weight
flag, the deduplication of lines 151-153 retains the row appearing first in
the original input order: the multi-key sort of line 152 is stable with input
order as the final tiebreak. -/
theorem c4_stable_tiebreak (l : List Row) (k : Option Int) (r : Row)
    (hr : retained l k = Option.some r) :
    l.find? (fun x => decide (x.key = k) && decide (wRank x = wRank r)) =
      Option.some r := by
  unfold retained at hr
  rw [dedup_sort_find? l k] at hr
  rcases hW : l.find? (pw k) with _ | w
  · rw [hW] at hr
    simp at hr
    have hnone := List.find?_eq_none.mp hW
    have hrmem := List.mem_of_find?_eq_some hr
    have hrk : r.key = k := by
      have := List.find?_some hr
      simpa [pk] using this
    have hrw : r.weight.isSome = false := by
      have hh2 := hnone r hrmem
      simp [pw, hrk] at hh2
      simp [hh2]
    rw [← hr]
    apply find?_congrP
    intro x hx
    by_cases hxk : x.key = k
    · have hxw : x.weight.isSome = false := by
        have hh2 := hnone x hx
        simp [pw, hxk] at hh2
        simp [hh2]
      simp [pk, hxk, wRank, hxw, hrw]
    · simp [pk, hxk]
  · rw [hW] at hr
    simp at hr
    subst hr
    have hww := List.find?_some hW
    simp [pw] at hww
    have hwr : wRank w = 0 := by simp [wRank, hww.2]
    rw [← hW]
    apply find?_congrP
    intro x hx
    by_cases hxk : x.key = k
    · simp [pw, pk, hxk, hwr]
      cases hh : x.weight.isSome <;> simp [wRank, hh]
    · simp [pw, pk, hxk]

/-- C5 counterexample: a row whose filter-column cell is null IS excluded by
the substring-exclusion step for the substring "nan": `astype(str)` first
turns the missing value into the literal text "nan", so the later `na=False`
never applies and the "contains" test matches. -/
theorem c5_null_filter_excluded_counterexample :
    clean "nan" DateFilter.nofilter
        [⟨some 1, Option.none, Option.none, Option.none⟩] = [] := by
  decide

/-- C5 amended: a null filter-column cell is stringified to "nan" by
`astype(str)` before the contains test, so null rows are not unconditionally
safe.  `str.contains` treats the pattern as a regex, so the exact
characterisation is stated for metacharacter-free patterns (`regexFree`),
where the regex search is literal containment: the row is kept exactly when
the lower-cased substring does not occur in "nan", and excluded otherwise. -/
theorem c5_null_stringified_amended (fv : String) (l : List Row) (r : Row)
    (hfv : fv ≠ "") (_hplain : regexFree fv = true)
    (hnull : r.filterVal = Option.none) :
    (r ∈ excludeFilter fv l ↔
      r ∈ l ∧ hasSubstr "nan" (lowerStr fv) = false) := by
  have hlow : lowerStr (strOfCell r.filterVal) = "nan" := by
    rw [hnull]
    decide
  unfold excludeFilter
  rw [if_neg hfv, List.mem_filter, hlow]
  cases hh : hasSubstr "nan" (lowerStr fv) <;> simp [hh]

/-- C7 counterexample: for a row whose parsed timestamp lies on day 5 but not
at midnight, the single-date filter for day 5 keeps the row while the
degenerate range filter [5, 5] drops it, so the two requests differ. -/
theorem c7_range_single_counterexample :
    clean "" (DateFilter.single 5)
        [⟨some 1, Option.none, Option.none, some ⟨5, 3⟩⟩] ≠
      clean "" (DateFilter.range 5 5)
        [⟨some 1, Option.none, Option.none, some ⟨5, 3⟩⟩] := by
  decide

/-- C7 amended: the single-date filter retains exactly the surviving rows
whose parsed date falls on calendar day `d`, time of day ignored; the
degenerate range `[d, d]` compares full timestamps against midnight bounds
and retains exactly the surviving rows whose parsed timestamp is exactly
midnight of `d`; hence the two requests coincide when every parsed timestamp
in the input is at midnight, and can differ otherwise. -/
theorem c7_single_date_amended (fv : String) (d : Int) (l : List Row) (r : Row) :
    (r ∈ clean fv (DateFilter.single d) l ↔
        r ∈ excludeFilter fv (drop_duplicates (sort_values l)) ∧
          ∃ t, r.pdate = Option.some t ∧ t.day = d) ∧
      (r ∈ clean fv (DateFilter.range d d) l ↔
        r ∈ excludeFilter fv (drop_duplicates (sort_values l)) ∧
          r.pdate = Option.some ⟨d, 0⟩) ∧
      ((∀ x ∈ l, ∀ t, x.pdate = Option.some t → t.tod = 0) →
        clean fv (DateFilter.range d d) l = clean fv (DateFilter.single d) l) := by
  refine ⟨?_, ?_, ?_⟩
  · show r ∈ List.filter _ (excludeFilter fv (drop_duplicates (sort_values l))) ↔ _
    rw [List.mem_filter]
    constructor
    · rintro ⟨h1, h2⟩
      refine ⟨h1, ?_⟩
      rcases hp : r.pdate with _ | t
      · rw [hp] at h2
        cases h2
      · rw [hp] at h2
        simp at h2
        exact ⟨t, rfl, h2⟩
    · rintro ⟨h1, t, hpt, htd⟩
      refine ⟨h1, ?_⟩
      rw [hpt]
      simp [htd]
  · show r ∈ List.filter _ (excludeFilter fv (drop_duplicates (sort_values l))) ↔ _
    rw [List.mem_filter]
    constructor
    · rintro ⟨h1, h2⟩
      refine ⟨h1, ?_⟩
      rcases hp : r.pdate with _ | t
      · rw [hp] at h2
        cases h2
      · rw [hp] at h2
        rcases t with ⟨day, tod⟩
        simp [tsLE, toTs] at h2
        have hday : day = d ∧ tod = 0 := by omega
        rw [hday.1, hday.2]
    · rintro ⟨h1, hpt⟩
      refine ⟨h1, ?_⟩
      rw [hpt]
      simp [tsLE, toTs]
  · intro hmid
    show List.filter _ _ = List.filter _ _
    apply filter_congrP
    intro x hx
    rcases hp : x.pdate with _ | t
    · simp only [hp]
    · have htod : t.tod = 0 := hmid x (mem_excl_dedup hx) t hp
      rcases t with ⟨day, tod⟩
      simp only at htod
      subst htod
      simp only [hp]
      by_cases hdd : day = d
      · subst hdd
        simp [tsLE, toTs]
      · have h1 : ¬ d = day := fun hh => hdd hh.symm
        simp [tsLE, toTs, hdd, h1]
        omega

/-- C8: whenever a date filter (range or single) is active, a row whose date
cell failed to parse (NaT after `errors='coerce'`) is excluded from the
output of `clean`; the exclusion is a filtering outcome of lines 174-188, not
an error. -/
theorem c8_unparsable_dropped (fv : String) (s e d : Int) (l : List Row) (r : Row)
    (hnat : r.pdate = Option.none) :
    r ∉ clean fv (DateFilter.range s e) l ∧
      r ∉ clean fv (DateFilter.single d) l := by
  constructor
  · intro hmem
    have hpr := (List.mem_filter.mp hmem).2
    simp [hnat] at hpr
  · intro hmem
    have hpr := (List.mem_filter.mp hmem).2
    simp [hnat] at hpr

/-! ### Concrete witnesses -/

/-- Witness for C2 at a concrete table: among two rows with key 1, one
weighted, the retained row is weighted. -/
theorem c2_priority_retained_witness :
    (⟨some 1, some 5, Option.none, Option.none⟩ : Row).weight.isSome = true :=
  c2_priority_retained
    [⟨some 1, Option.none, Option.none, Option.none⟩,
     ⟨some 1, some 5, Option.none, Option.none⟩]
    (some 1) ⟨some 1, some 5, Option.none, Option.none⟩
    ⟨⟨some 1, some 5, Option.none, Option.none⟩, by decide, by decide, by decide⟩
    (by decide)

/-- Witness for C4 at a concrete table: two rows tie on key 1 and on the
(absent) weight flag; the first one in input order is the retained row. -/
theorem c4_stable_tiebreak_witness :
    List.find?
        (fun x => decide (x.key = some 1) &&
          decide (wRank x =
            wRank (⟨some 1, Option.none, Option.none, Option.none⟩ : Row)))
        [⟨some 1, Option.none, Option.none, Option.none⟩,
         ⟨some 1, Option.none, some "b", Option.none⟩] =
      Option.some ⟨some 1, Option.none, Option.none, Option.none⟩ :=
  c4_stable_tiebreak
    [⟨some 1, Option.none, Option.none, Option.none⟩,
     ⟨some 1, Option.none, some "b", Option.none⟩]
    (some 1) ⟨some 1, Option.none, Option.none, Option.none⟩ (by decide)

/-- Witness for the amended C5 at a concrete table: for the substring "xyz"
(not occurring in "nan") the null-cell row is kept. -/
theorem c5_null_stringified_amended_witness :
    ((⟨some 1, Option.none, Option.none, Option.none⟩ : Row) ∈
        excludeFilter "xyz" [⟨some 1, Option.none, Option.none, Option.none⟩] ↔
      (⟨some 1, Option.none, Option.none, Option.none⟩ : Row) ∈
          [(⟨some 1, Option.none, Option.none, Option.none⟩ : Row)] ∧
        hasSubstr "nan" (lowerStr "xyz") = false) :=
  c5_null_stringified_amended "xyz"
    [⟨some 1, Option.none, Option.none, Option.none⟩]
    ⟨some 1, Option.none, Option.none, Option.none⟩ (by decide) (by decide) rfl

/-- Witness for the amended C7 at a concrete one-row table whose timestamp is
midnight of day 5. -/
theorem c7_single_date_amended_witness :
    ((⟨some 1, Option.none, Option.none, some ⟨5, 0⟩⟩ : Row) ∈
        clean "" (DateFilter.single 5)
          [⟨some 1, Option.none, Option.none, some ⟨5, 0⟩⟩] ↔
      (⟨some 1, Option.none, Option.none, some ⟨5, 0⟩⟩ : Row) ∈
          excludeFilter "" (drop_duplicates (sort_values
            [⟨some 1, Option.none, Option.none, some ⟨5, 0⟩⟩])) ∧
        ∃ t, (⟨some 1, Option.none, Option.none, some ⟨5, 0⟩⟩ : Row).pdate =
            Option.some t ∧ t.day = 5) ∧
      ((⟨some 1, Option.none, Option.none, some ⟨5, 0⟩⟩ : Row) ∈
          clean "" (DateFilter.range 5 5)
            [⟨some 1, Option.none, Option.none, some ⟨5, 0⟩⟩] ↔
        (⟨some 1, Option.none, Option.none, some ⟨5, 0⟩⟩ : Row) ∈
            excludeFilter "" (drop_duplicates (sort_values
              [⟨some 1, Option.none, Option.none, some ⟨5, 0⟩⟩])) ∧
          (⟨some 1, Option.none, Option.none, some ⟨5, 0⟩⟩ : Row).pdate =
            Option.some ⟨5, 0⟩) ∧
      ((∀ x ∈ [(⟨some 1, Option.none, Option.none, some ⟨5, 0⟩⟩ : Row)],
          ∀ t, x.pdate = Option.some t → t.tod = 0) →
        clean "" (DateFilter.range 5 5)
            [⟨some 1, Option.none, Option.none, some ⟨5, 0⟩⟩] =
          clean "" (DateFilter.single 5)
            [⟨some 1, Option.none, Option.none, some ⟨5, 0⟩⟩]) :=
  c7_single_date_amended "" 5 [⟨some 1, Option.none, Option.none, some ⟨5, 0⟩⟩]
    ⟨some 1, Option.none, Option.none, some ⟨5, 0⟩⟩

/-- Witness for C8 at a concrete table: the NaT row is dropped by both an
active range filter and an active single-date filter. -/
theorem c8_unparsable_dropped_witness :
    (⟨some 1, Option.none, Option.none, Option.none⟩ : Row) ∉
        clean "" (DateFilter.range 1 2)
          [⟨some 1, Option.none, Option.none, Option.none⟩] ∧
      (⟨some 1, Option.none, Option.none, Option.none⟩ : Row) ∉
        clean "" (DateFilter.single 3)
          [⟨some 1, Option.none, Option.none, Option.none⟩] :=
  c8_unparsable_dropped "" 1 2 3
    [⟨some 1, Option.none, Option.none, Option.none⟩]
    ⟨some 1, Option.none, Option.none, Option.none⟩ rfl
